import Mathlib

/-!
Verification of `src/scanpy/preprocessing/normalization.py`.

The numeric type of the matrices is modelled by `ℚ`; matrices are lists of
rows, each row a list of rationals.  The scipy sparse / numpy dense
distinction is kept as a boolean flag on the matrix, because the source takes
different code paths for the two representations (`sparsefuncs.inplace_row_scale`
scales rows in place and returns `None`, which the source rebinds to `X`).
Python exceptions are modelled with an explicit error type and `Except`.
-/

attribute [local semireducible] Rat.mul Rat.add Rat.sub Rat.inv

namespace Scanpy

abbrev Row := List ℚ
abbrev Mat := List Row

/-- Insert a rational into an already sorted list, keeping it sorted. -/
def insSorted (x : ℚ) : List ℚ → List ℚ
  | [] => [x]
  | y :: ys => if x ≤ y then x :: y :: ys else y :: insSorted x ys

/-- Sort a list of rationals (insertion sort). -/
def sortQ (l : List ℚ) : List ℚ := l.foldr insSorted []

/-- Model of `np.median`: sorted middle element for odd length, mean of the two
middle elements for even length.  (`np.median` of an empty array is NaN; the
model returns 0 there, and no theorem relies on that degenerate case.) -/
def median (xs : List ℚ) : ℚ :=
  let s := sortQ xs
  let n := s.length
  if n % 2 = 1 then s.getD (n / 2) 0
  else (s.getD (n / 2 - 1) 0 + s.getD (n / 2) 0) / 2

/-- Boolean-mask selection, `xs[mask]` in numpy. -/
def maskSelect (mask : List Bool) (xs : List ℚ) : List ℚ :=
  (List.zip mask xs).filterMap fun p => if p.1 then some p.2 else none

/-- Model of `counts += (counts == 0)` applied entrywise: a divisor equal to
exactly zero becomes 1, every other divisor is unchanged. -/
def guardZero (c : ℚ) : ℚ := if c = 0 then 1 else c

/-- Resolution of the `after` argument of `_normalize_data`
(`after = np.median(counts[cell_subset]) if cell_subset is not None else np.median(counts)`
when `after is None`). -/
def resolveAfter (counts : List ℚ) (after : Option ℚ) (cell_subset : Option (List Bool)) : ℚ :=
  match after with
  | some a => a
  | none =>
    match cell_subset with
    | some m => median (maskSelect m counts)
    | none => median counts

/-- The divisor transform of `_normalize_data` before the zero guard:
`counts /= after` when there is no row mask, otherwise
`counts[~cell_subset] = 1; counts[cell_subset] /= after`. -/
def transformedCounts (counts : List ℚ) (after : ℚ) (cell_subset : Option (List Bool)) :
    List ℚ :=
  match cell_subset with
  | none => counts.map fun c => c / after
  | some m => List.zipWith (fun b c => if b then c / after else 1) m counts

/-- The per-row divisors `_normalize_data` divides by: the transformed counts
with the zero guard (`counts += (counts == 0)`) applied. -/
def divisors (counts : List ℚ) (after : Option ℚ) (cell_subset : Option (List Bool)) :
    List ℚ :=
  (transformedCounts counts (resolveAfter counts after cell_subset) cell_subset).map guardZero

/-- Row-wise division of a matrix by a divisor vector
(`X /= counts[:, None]`, or `sparsefuncs.inplace_row_scale(X, 1/counts)`). -/
def scaleRows (divs : List ℚ) (rows : Mat) : Mat :=
  List.zipWith (fun d r => r.map fun x => x / d) divs rows

/-- A matrix together with its representation flag (`scipy.sparse` or dense
`numpy`).  Scaling follows the same arithmetic on both representations but
different code paths in the source. -/
structure NMat where
  sparse : Bool
  rows : Mat
deriving DecidableEq

/-- Model of `_normalize_data(X, counts, after=None, cell_subset=None, copy=False)`.

The first component is the storage of the argument matrix after the call
(mutated in place when `copy=False`, untouched when `copy=True`); the second
component is the Python return value.  On the sparse path the source executes
`X = sparsefuncs.inplace_row_scale(X, 1/counts)`: the sklearn primitive scales
in place and returns `None`, so `X` is rebound to `None` and
`return X if copy else None` yields `None` even when `copy=True`. -/
def _normalize_data (X : NMat) (counts : List ℚ) (after : Option ℚ)
    (cell_subset : Option (List Bool)) (copy : Bool) : NMat × Option NMat :=
  let divs := divisors counts after cell_subset
  let scaled : NMat := ⟨X.sparse, scaleRows divs X.rows⟩
  if copy then (X, if X.sparse then none else some scaled)
  else (scaled, none)

/-- Number of columns of a matrix. -/
def ncols (rows : Mat) : ℕ := (rows.headD []).length

/-- Column `j` survives the quantile filter iff no row has its `j`-th entry
strictly exceeding that row's full total times the quantile
(`gene_subset = ((X > counts_per_cell[:, None]*quantile).sum(0) == 0)`). -/
def includedColB (rows : Mat) (quantile : ℚ) (j : ℕ) : Bool :=
  rows.all fun r => decide (r.getD j 0 ≤ r.sum * quantile)

/-- The boolean column mask computed by the quantile filter. -/
def geneMask (rows : Mat) (quantile : ℚ) : List Bool :=
  (List.range (ncols rows)).map (includedColB rows quantile)

/-- `gene_subset` as in the source: `None` unless `quantile < 1`. -/
def gene_subset (rows : Mat) (quantile : ℚ) : Option (List Bool) :=
  if quantile < 1 then some (geneMask rows quantile) else none

/-- `X if gene_subset is None else data[:, gene_subset].X`: the column slice
used for the row-sum computation. -/
def filteredRows (rows : Mat) (quantile : ℚ) : Mat :=
  match gene_subset rows quantile with
  | none => rows
  | some m => rows.map (maskSelect m)

/-- `counts_per_cell = np.ravel(X.sum(1))` over the (possibly filtered) columns. -/
def counts_per_cell (rows : Mat) (quantile : ℚ) : List ℚ :=
  (filteredRows rows quantile).map List.sum

/-- `cell_subset = counts_per_cell >= min_counts`. -/
def cell_subsetV (counts : List ℚ) (min_counts : ℚ) : List Bool :=
  counts.map fun c => decide (min_counts ≤ c)

/-- Sum of a row restricted to the columns the quantile filter of `rows` keeps
(all columns when `quantile` is not less than 1). -/
def usedSum (rows : Mat) (quantile : ℚ) (r : Row) : ℚ :=
  match gene_subset rows quantile with
  | none => r.sum
  | some m => (maskSelect m r).sum

/-- Decidable equality of `Except` values, used to evaluate concrete runs. -/
def exceptDecEq {ε α : Type} [DecidableEq ε] [DecidableEq α] : DecidableEq (Except ε α)
  | .error e, .error f =>
    if h : e = f then .isTrue (by rw [h]) else .isFalse fun hh => by cases hh; exact h rfl
  | .error _, .ok _ => .isFalse fun hh => by cases hh
  | .ok _, .error _ => .isFalse fun hh => by cases hh
  | .ok a, .ok b =>
    if h : a = b then .isTrue (by rw [h]) else .isFalse fun hh => by cases hh; exact h rfl

instance {ε α : Type} [DecidableEq ε] [DecidableEq α] : DecidableEq (Except ε α) :=
  exceptDecEq

/-- Python exceptions the normalization code can raise. -/
inductive PyError where
  | valueError (msg : String)
  | nameError (msg : String)
  | keyError (msg : String)
deriving DecidableEq

/-- The `layers` argument: an explicit list of names or the sentinel `'all'`. -/
inductive LayerSel where
  | all
  | names (ns : List String)
deriving DecidableEq

/-- The annotated data container: primary matrix `X`, named layers, and the
per-row metadata store `obs`. -/
structure AnnData where
  X : NMat
  layers : List (String × NMat)
  obs : List (String × List ℚ)
deriving DecidableEq

/-- Overwrite the matrix stored under a layer name. -/
def updateLayer (ls : List (String × NMat)) (k : String) (v : NMat) :
    List (String × NMat) :=
  ls.map fun p => if p.1 = k then (k, v) else p

/-- The loop `for layer in layers: ...` of `normalize_quantile`: each selected
layer is normalized with its own row sums, the resolved `after`, and no
`cell_subset`.  Returns the post-loop container and the `dat` entries added. -/
def processLayers (data : AnnData) (names : List String) (after : Option ℚ)
    (inplace : Bool) : Except PyError (AnnData × List (String × Option NMat)) :=
  match names with
  | [] => .ok (data, [])
  | n :: rest =>
    match List.lookup n data.layers with
    | none => .error (.keyError n)
    | some L =>
      let counts := L.rows.map List.sum
      if inplace then
        let res := _normalize_data L counts after none false
        processLayers { data with layers := updateLayer data.layers n res.1 } rest after inplace
      else
        let res := _normalize_data L counts after none true
        match processLayers data rest after inplace with
        | .error e => .error e
        | .ok (d, dat) => .ok (d, (n, res.2) :: dat)

/-- Model of `normalize_quantile`.

Returns the post-call state of the container together with the Python return
value (`dat` when `inplace=False`, `None` otherwise).  The line
`adata.obs[key_n_counts] = counts_per_cell` references the undefined name
`adata` (the parameter is `data`), so any call with `key_n_counts` provided
raises `NameError` at that point, after the row sums are computed and before
`cell_subset`, the `layer_norm` validation, and any matrix mutation. -/
def normalize_quantile (data : AnnData) (cell_sum_after : Option ℚ) (quantile : ℚ)
    (min_counts : ℚ) (key_n_counts : Option String) (inplace : Bool)
    (layers : LayerSel) (layer_norm : Option String) :
    Except PyError (AnnData × Option (List (String × Option NMat))) :=
  if quantile < 0 ∨ 1 < quantile then
    .error (.valueError "Choose quantile between 0 and 1.")
  else
    let counts := counts_per_cell data.X.rows quantile
    if key_n_counts.isSome then .error (.nameError "name adata is not defined")
    else
      let cs := cell_subsetV counts min_counts
      let afterE : Except PyError (Option ℚ) :=
        match layer_norm with
        | some s =>
          if s = "after" then .ok cell_sum_after
          else if s = "X" then .ok (some (median (maskSelect cs counts)))
          else .error (.valueError "layer_norm should be \"after\", \"X\" or None")
        | none => .ok none
      match afterE with
      | .error e => .error e
      | .ok after =>
        let names := match layers with
          | .all => data.layers.map Prod.fst
          | .names ns => ns
        if inplace then
          let X1 := (_normalize_data data.X counts cell_sum_after (some cs) false).1
          match processLayers { data with X := X1 } names after true with
          | .error e => .error e
          | .ok (d, _) => .ok (d, none)
        else
          let xret := (_normalize_data data.X counts cell_sum_after (some cs) true).2
          match processLayers data names after false with
          | .error e => .error e
          | .ok (_, dat) => .ok (data, some (("X", xret) :: dat))

/-- Model of `normalize_total`: the source body is a single delegation to
`normalize_quantile` with `quantile=1`; the `counts_per_cell` parameter is
accepted but never used. -/
def normalize_total (data : AnnData) (cell_sum_after : Option ℚ)
    (counts_per_cell : Option (List ℚ)) (key_n_counts : Option String)
    (inplace : Bool) (layers : LayerSel) (layer_norm : Option String)
    (min_counts : ℚ) :
    Except PyError (AnnData × Option (List (String × Option NMat))) :=
  normalize_quantile data cell_sum_after 1 min_counts key_n_counts inplace layers layer_norm

/-- The target total the primary normalization resolves: the caller-supplied
`cell_sum_after`, or else the median of the qualifying rows' filtered sums. -/
def primaryAfter (data : AnnData) (quantile : ℚ) (cell_sum_after : Option ℚ)
    (min_counts : ℚ) : ℚ :=
  resolveAfter (counts_per_cell data.X.rows quantile) cell_sum_after
    (some (cell_subsetV (counts_per_cell data.X.rows quantile) min_counts))

/-- Whether column `j` is used in the row-sum computation at a given quantile
(all columns are used when the filter is skipped). -/
def usedColB (rows : Mat) (quantile : ℚ) (j : ℕ) : Bool :=
  match gene_subset rows quantile with
  | none => true
  | some m => m.getD j true

/-- The matrix of the `normalize_quantile` docstring example. -/
def docX3 : Mat := [[1, 0, 1], [3, 0, 1], [5, 6, 1]]

/-- Container holding the `normalize_quantile` docstring example. -/
def docData3 : AnnData := ⟨⟨false, docX3⟩, [], []⟩

/-- The matrix of the `normalize_total` docstring example. -/
def docX2 : Mat := [[1, 0], [3, 0], [5, 6]]

/-- Container holding the `normalize_total` docstring example. -/
def docData2 : AnnData := ⟨⟨false, docX2⟩, [], []⟩

/-- A container with one layer whose rows all sum to 10, used to exercise the
`layer_norm='after'` policy with no caller-supplied target. -/
def layerData10 : AnnData :=
  ⟨⟨false, docX2⟩, [("L", ⟨false, [[10, 0], [10, 0], [10, 0]]⟩)], []⟩

/-- A container whose layer has a row summing below `min_counts = 5`, used to
exercise the qualifying mask on layers. -/
def layerDataLow : AnnData := ⟨⟨false, [[7], [7]]⟩, [("L", ⟨false, [[1], [9]]⟩)], []⟩

/-- A small container with one dense layer of nonzero row sums. -/
def layerDataW : AnnData := ⟨⟨false, [[1], [1]]⟩, [("L", ⟨false, [[2], [4]]⟩)], []⟩

theorem getD_map {α β : Type} (f : α → β) (l : List α) (i : ℕ) (hi : i < l.length)
    (da : α) (db : β) : (l.map f).getD i db = f (l.getD i da) := by
  induction l generalizing i with
  | nil => simp at hi
  | cons x xs ih =>
    cases i with
    | zero => simp
    | succ n =>
      simp only [List.map_cons, List.getD_cons_succ]
      exact ih n (by simpa using hi)

theorem getD_zipWith {α β γ : Type} (f : α → β → γ) (a : List α) (b : List β) (i : ℕ)
    (ha : i < a.length) (hb : i < b.length) (da : α) (db : β) (dc : γ) :
    (List.zipWith f a b).getD i dc = f (a.getD i da) (b.getD i db) := by
  induction a generalizing b i with
  | nil => simp at ha
  | cons x xs ih =>
    cases b with
    | nil => simp at hb
    | cons y ys =>
      cases i with
      | zero => simp
      | succ n =>
        simp only [List.zipWith_cons_cons, List.getD_cons_succ]
        exact ih ys n (by simpa using ha) (by simpa using hb)

theorem length_filteredRows (rows : Mat) (q : ℚ) :
    (filteredRows rows q).length = rows.length := by
  unfold filteredRows
  cases gene_subset rows q <;> simp

theorem length_counts_per_cell (rows : Mat) (q : ℚ) :
    (counts_per_cell rows q).length = rows.length := by
  simp [counts_per_cell, length_filteredRows]

theorem length_cell_subsetV (counts : List ℚ) (minc : ℚ) :
    (cell_subsetV counts minc).length = counts.length := by
  simp [cell_subsetV]

theorem length_divisors_some (counts : List ℚ) (a : Option ℚ) (m : List Bool)
    (hm : m.length = counts.length) :
    (divisors counts a (some m)).length = counts.length := by
  simp [divisors, transformedCounts, hm]

theorem length_divisors_none (counts : List ℚ) (a : Option ℚ) :
    (divisors counts a none).length = counts.length := by
  simp [divisors, transformedCounts]

theorem sum_map_div (r : Row) (d : ℚ) : (r.map fun x => x / d).sum = r.sum / d := by
  induction r with
  | nil => simp
  | cons x xs ih => simp [ih, add_div]

theorem maskSelect_map_div (m : List Bool) (r : Row) (d : ℚ) :
    (maskSelect m (r.map fun x => x / d)).sum = (maskSelect m r).sum / d := by
  induction m generalizing r with
  | nil => simp [maskSelect]
  | cons b bs ih =>
    cases r with
    | nil => simp [maskSelect]
    | cons x xs =>
      have h := ih xs
      simp only [maskSelect] at h ⊢
      cases b <;> simp [List.zip_cons_cons, List.filterMap_cons, h, add_div]

theorem usedSum_map_div (rows : Mat) (q : ℚ) (r : Row) (d : ℚ) :
    usedSum rows q (r.map fun x => x / d) = usedSum rows q r / d := by
  unfold usedSum
  cases gene_subset rows q with
  | none => exact sum_map_div r d
  | some m => exact maskSelect_map_div m r d

theorem counts_per_cell_getD (rows : Mat) (q : ℚ) (i : ℕ) (hi : i < rows.length) :
    (counts_per_cell rows q).getD i 0 = usedSum rows q (rows.getD i []) := by
  unfold counts_per_cell filteredRows usedSum
  cases gene_subset rows q with
  | none => simpa using getD_map List.sum rows i hi [] 0
  | some m =>
    simp only [List.map_map]
    simpa using getD_map (List.sum ∘ maskSelect m) rows i hi [] 0

theorem map_fix_of_fixed {f : ℚ → ℚ} (r : Row) (h : ∀ x ∈ r, f x = x) : r.map f = r := by
  induction r with
  | nil => rfl
  | cons x xs ih =>
    simp only [List.map_cons, h x (by simp)]
    rw [ih fun y hy => h y (by simp [hy])]

theorem all_zero_of_sum_zero (r : Row) (hnn : ∀ x ∈ r, 0 ≤ x) (hs : r.sum = 0) :
    ∀ x ∈ r, x = 0 := by
  induction r with
  | nil => simp
  | cons x xs ih =>
    have hx : 0 ≤ x := hnn x (by simp)
    have hxs : 0 ≤ xs.sum := List.sum_nonneg fun y hy => hnn y (by simp [hy])
    have hsum : x + xs.sum = 0 := by simpa using hs
    have hx0 : x = 0 := le_antisymm (by linarith) hx
    have hxs0 : xs.sum = 0 := by linarith
    intro y hy
    rcases List.mem_cons.mp hy with h | h
    · rw [h, hx0]
    · exact ih (fun z hz => hnn z (by simp [hz])) hxs0 y h

theorem not_quantile_out (q : ℚ) (hq0 : 0 ≤ q) (hq1 : q ≤ 1) : ¬(q < 0 ∨ 1 < q) := by
  push_neg
  exact ⟨hq0, hq1⟩

theorem nq_inplace_empty (data : AnnData) (csa : Option ℚ) (q minc : ℚ)
    (hq0 : 0 ≤ q) (hq1 : q ≤ 1) :
    normalize_quantile data csa q minc none true (.names []) none =
      .ok ({ data with X := ⟨data.X.sparse,
        scaleRows (divisors (counts_per_cell data.X.rows q) csa
          (some (cell_subsetV (counts_per_cell data.X.rows q) minc))) data.X.rows⟩ }, none) := by
  unfold normalize_quantile
  rw [if_neg (not_quantile_out q hq0 hq1)]
  simp [processLayers, _normalize_data]

theorem nq_copy_single (data : AnnData) (csa : Option ℚ) (q minc : ℚ)
    (hq0 : 0 ≤ q) (hq1 : q ≤ 1) (n : String) (L : NMat)
    (hL : List.lookup n data.layers = some L) (lnorm : Option String) (after : Option ℚ)
    (hln : (lnorm = some "after" ∧ after = csa) ∨ (lnorm = none ∧ after = none)) :
    normalize_quantile data csa q minc none false (.names [n]) lnorm =
      .ok (data, some
        [("X", (_normalize_data data.X (counts_per_cell data.X.rows q) csa
            (some (cell_subsetV (counts_per_cell data.X.rows q) minc)) true).2),
         (n, (_normalize_data L (L.rows.map List.sum) after none true).2)]) := by
  unfold normalize_quantile
  rw [if_neg (not_quantile_out q hq0 hq1)]
  rcases hln with ⟨h1, h2⟩ | ⟨h1, h2⟩ <;> subst h1 <;> subst h2 <;>
    simp [processLayers, hL]

theorem scaleRows_getD (divs : List ℚ) (rows : Mat) (i : ℕ)
    (h1 : i < divs.length) (h2 : i < rows.length) :
    (scaleRows divs rows).getD i [] = (rows.getD i []).map fun x => x / divs.getD i 1 := by
  unfold scaleRows
  exact getD_zipWith _ divs rows i h1 h2 1 [] []

theorem primary_divisor_getD (rows : Mat) (q minc : ℚ) (csa : Option ℚ) (i : ℕ)
    (hi : i < rows.length) :
    (divisors (counts_per_cell rows q) csa
        (some (cell_subsetV (counts_per_cell rows q) minc))).getD i 1 =
      guardZero (if minc ≤ (counts_per_cell rows q).getD i 0
        then (counts_per_cell rows q).getD i 0 /
          resolveAfter (counts_per_cell rows q) csa
            (some (cell_subsetV (counts_per_cell rows q) minc))
        else 1) := by
  have hcl := length_counts_per_cell rows q
  have hml := length_cell_subsetV (counts_per_cell rows q) minc
  unfold divisors transformedCounts
  rw [getD_map guardZero _ i (by simp [List.length_zipWith, hcl, hml]; omega) 1 1]
  rw [getD_zipWith _ _ _ i (by rw [hml, hcl]; exact hi) (by rw [hcl]; exact hi) false 0 1]
  have hm : (cell_subsetV (counts_per_cell rows q) minc).getD i false =
      decide (minc ≤ (counts_per_cell rows q).getD i 0) := by
    unfold cell_subsetV
    exact getD_map _ _ i (by rw [hcl]; exact hi) 0 false
  rw [hm]
  by_cases h : minc ≤ (counts_per_cell rows q).getD i 0 <;> simp [h]

theorem layer_divisor_getD (sums : List ℚ) (a : Option ℚ) (i : ℕ) (hi : i < sums.length) :
    (divisors sums a none).getD i 1 = guardZero (sums.getD i 0 / resolveAfter sums a none) := by
  unfold divisors transformedCounts
  rw [getD_map guardZero _ i (by simp [hi]) 1 1]
  rw [getD_map (fun c => c / resolveAfter sums a none) sums i hi 0 1]

theorem scaled_layer_sum (L : Mat) (a : Option ℚ) (i : ℕ) (hi : i < L.length)
    (hs : (L.getD i []).sum ≠ 0) (ha : resolveAfter (L.map List.sum) a none ≠ 0) :
    ((scaleRows (divisors (L.map List.sum) a none) L).getD i []).sum =
      resolveAfter (L.map List.sum) a none := by
  have hlen : (L.map List.sum).length = L.length := by simp
  rw [scaleRows_getD _ _ i (by rw [length_divisors_none, hlen]; exact hi) hi]
  rw [sum_map_div]
  rw [layer_divisor_getD _ a i (by rw [hlen]; exact hi)]
  rw [getD_map List.sum L i hi [] 0]
  have hst : (L.getD i []).sum / resolveAfter (L.map List.sum) a none ≠ 0 :=
    div_ne_zero hs ha
  simp only [guardZero, if_neg hst]
  rw [div_div_eq_mul_div, mul_comm, mul_div_assoc, div_self hs, mul_one]

theorem geneMask_getD (rows : Mat) (q : ℚ) (j : ℕ) (hj : j < ncols rows) :
    (geneMask rows q).getD j true = includedColB rows q j := by
  unfold geneMask
  rw [getD_map _ _ j (by simpa using hj) 0 true]
  congr 1
  rw [List.getD_eq_getElem _ _ (by simpa using hj)]
  simp

theorem length_divisors_eq (counts : List ℚ) (a : Option ℚ) (s : Option (List Bool))
    (hm : ∀ m, s = some m → m.length = counts.length) :
    (divisors counts a s).length = counts.length := by
  cases s with
  | none => exact length_divisors_none counts a
  | some m => exact length_divisors_some counts a m (hm m rfl)

theorem div_div_self_right (s t : ℚ) (hs : s ≠ 0) : s / (s / t) = t := by
  rcases eq_or_ne t 0 with ht | ht
  · simp [ht]
  · rw [div_div_eq_mul_div, mul_comm, mul_div_assoc, div_self hs, mul_one]

/-- C1: for a matrix normalized in place by `normalize_quantile` with any
quantile in `[0,1]`, any `min_counts`, and a nonzero resolved target total
(the caller-supplied `cell_sum_after`, or else the median of the qualifying
rows' filtered sums), every qualifying row (pre-normalization filtered sum at
least `min_counts`) with nonzero filtered sum ends with its total over the
columns used for divisor computation equal to that resolved target; a row with
nonnegative entries whose original sum was zero is left unchanged, still all
zero. -/
theorem C1_row_total_reaches_target (data : AnnData) (csa : Option ℚ) (q minc : ℚ)
    (hq0 : 0 ≤ q) (hq1 : q ≤ 1) (hA : primaryAfter data q csa minc ≠ 0) :
    ∃ d1 : AnnData,
      normalize_quantile data csa q minc none true (.names []) none = .ok (d1, none) ∧
      (∀ i, i < data.X.rows.length →
        minc ≤ (counts_per_cell data.X.rows q).getD i 0 →
        (counts_per_cell data.X.rows q).getD i 0 ≠ 0 →
        usedSum data.X.rows q (d1.X.rows.getD i []) = primaryAfter data q csa minc) ∧
      (∀ i, i < data.X.rows.length →
        (∀ x ∈ data.X.rows.getD i [], (0:ℚ) ≤ x) →
        (data.X.rows.getD i []).sum = 0 →
        d1.X.rows.getD i [] = data.X.rows.getD i [] ∧
        ∀ x ∈ d1.X.rows.getD i [], x = 0) := by
  refine ⟨_, nq_inplace_empty data csa q minc hq0 hq1, ?_, ?_⟩ <;> dsimp only
  all_goals
    have hcl := length_counts_per_cell data.X.rows q
    have hml := length_cell_subsetV (counts_per_cell data.X.rows q) minc
    have hdl : (divisors (counts_per_cell data.X.rows q) csa
        (some (cell_subsetV (counts_per_cell data.X.rows q) minc))).length =
        data.X.rows.length := by
      rw [length_divisors_some _ _ _ hml, hcl]
  · intro i hi hqual hcne
    rw [scaleRows_getD _ _ i (by rw [hdl]; exact hi) hi]
    rw [usedSum_map_div]
    rw [← counts_per_cell_getD data.X.rows q i hi]
    rw [primary_divisor_getD data.X.rows q minc csa i hi, if_pos hqual]
    have hne : (counts_per_cell data.X.rows q).getD i 0 /
        resolveAfter (counts_per_cell data.X.rows q) csa
          (some (cell_subsetV (counts_per_cell data.X.rows q) minc)) ≠ 0 :=
      div_ne_zero hcne hA
    simp only [guardZero, if_neg hne]
    exact div_div_self_right _ _ hcne
  · intro i hi hnn hs
    have hz := all_zero_of_sum_zero _ hnn hs
    rw [scaleRows_getD _ _ i (by rw [hdl]; exact hi) hi]
    have heq : (data.X.rows.getD i []).map
        (fun x => x / (divisors (counts_per_cell data.X.rows q) csa
          (some (cell_subsetV (counts_per_cell data.X.rows q) minc))).getD i 1) =
        data.X.rows.getD i [] := by
      refine map_fix_of_fixed _ fun x hx => ?_
      rw [hz x hx]
      simp
    rw [heq]
    exact ⟨rfl, hz⟩

/-- C1 witness: the docstring matrix with quantile 0.7, `min_counts` 1 and no
caller-supplied target satisfies the hypotheses of
`C1_row_total_reaches_target`. -/
theorem C1_witness :
    (0:ℚ) ≤ 7/10 ∧ (7/10:ℚ) ≤ 1 ∧ primaryAfter docData3 (7/10) none 1 ≠ 0 ∧
    (∃ d1 : AnnData,
      normalize_quantile docData3 none (7/10) 1 none true (.names []) none =
        .ok (d1, none) ∧
      (∀ i, i < docData3.X.rows.length →
        (1:ℚ) ≤ (counts_per_cell docData3.X.rows (7/10)).getD i 0 →
        (counts_per_cell docData3.X.rows (7/10)).getD i 0 ≠ 0 →
        usedSum docData3.X.rows (7/10) (d1.X.rows.getD i []) =
          primaryAfter docData3 (7/10) none 1) ∧
      (∀ i, i < docData3.X.rows.length →
        (∀ x ∈ docData3.X.rows.getD i [], (0:ℚ) ≤ x) →
        (docData3.X.rows.getD i []).sum = 0 →
        d1.X.rows.getD i [] = docData3.X.rows.getD i [] ∧
        ∀ x ∈ d1.X.rows.getD i [], x = 0)) :=
  ⟨by norm_num, by norm_num, by decide,
    C1_row_total_reaches_target docData3 none (7/10) 1 (by norm_num) (by norm_num)
      (by decide)⟩

/-- C2: with `quantile < 1` a column is excluded from the row-sum computation
exactly when some row's entry in that column strictly exceeds that row's full
total times the quantile; with `quantile = 1` no filtering happens and all
columns are used; and on the docstring input `[[1,0,1],[3,0,1],[5,6,1]]` with
quantile 0.7 the normalized matrix is `[[1,0,1],[3,0,1],[5/7,6/7,1/7]]`. -/
theorem C2_quantile_filter (rows : Mat) (q : ℚ) (j : ℕ) :
    (q < 1 → j < ncols rows →
      ((geneMask rows q).getD j true = false ↔
        ∃ i, i < rows.length ∧
          (rows.getD i []).sum * q < (rows.getD i []).getD j 0)) ∧
    (gene_subset rows 1 = none ∧ filteredRows rows 1 = rows) ∧
    normalize_quantile docData3 none (7/10) 1 none true (.names []) none =
      .ok (⟨⟨false, [[1, 0, 1], [3, 0, 1], [5/7, 6/7, 1/7]]⟩, [], []⟩, none) := by
  refine ⟨fun hq hj => ?_, ⟨by simp [gene_subset], by simp [filteredRows, gene_subset]⟩,
    by decide⟩
  rw [geneMask_getD rows q j hj]
  unfold includedColB
  rw [List.all_eq_false]
  constructor
  · rintro ⟨r, hr, hp⟩
    rcases List.mem_iff_getElem.mp hr with ⟨i, hi, hri⟩
    refine ⟨i, hi, ?_⟩
    have hgd : rows.getD i [] = r := by
      rw [List.getD_eq_getElem _ _ hi, hri]
    rw [hgd]
    have hnle : ¬ (r.getD j 0 ≤ r.sum * q) := by simpa using hp
    exact not_le.mp hnle
  · rintro ⟨i, hi, hlt⟩
    refine ⟨rows.getD i [], ?_, ?_⟩
    · rw [List.getD_eq_getElem _ _ hi]
      exact List.getElem_mem hi
    · simpa using not_le.mpr hlt

/-- C2 witness: on the docstring matrix at quantile 0.7, column 0 is excluded
and the characterization of `C2_quantile_filter` applies at that column. -/
theorem C2_witness :
    (7/10 : ℚ) < 1 ∧ 0 < ncols docX3 ∧
    ((geneMask docX3 (7/10)).getD 0 true = false ↔
      ∃ i, i < docX3.length ∧
        (docX3.getD i []).sum * (7/10) < (docX3.getD i []).getD 0 0) :=
  ⟨by norm_num, by decide,
    (C2_quantile_filter docX3 (7/10) 0).1 (by norm_num) (by decide)⟩

/-- C3: the row-scaling primitive with `copy=True` leaves the original matrix
untouched in both representations, but returns the normalized copy only for a
dense matrix: for a sparse matrix it returns `None` (so the `inplace=False`
result maps `'X'` to `None` on sparse data), because the in-place sparse
row-scaling primitive returns `None` and the code rebinds `X` to it. -/
theorem C3_sparse_copy_returns_none :
    _normalize_data ⟨true, [[2, 2]]⟩ [4] (some 2) none true = (⟨true, [[2, 2]]⟩, none) ∧
    _normalize_data ⟨false, [[2, 2]]⟩ [4] (some 2) none true =
      (⟨false, [[2, 2]]⟩, some ⟨false, [[1, 1]]⟩) ∧
    _normalize_data ⟨false, [[2, 2]]⟩ [4] (some 2) none false =
      (⟨false, [[1, 1]]⟩, none) ∧
    normalize_quantile ⟨⟨true, [[2, 2]]⟩, [], []⟩ (some 2) 1 1 none false
      (.names []) none =
      .ok (⟨⟨true, [[2, 2]]⟩, [], []⟩, some [("X", none)]) := by
  refine ⟨by decide, by decide, by decide, by decide⟩

/-- C4: providing `key_n_counts` makes `normalize_quantile` raise `NameError`
(the code writes to `adata.obs` but the parameter is named `data`), instead of
storing the per-row sums `[1,3,11]` and completing normally. -/
theorem C4_key_n_counts_raises_name_error :
    normalize_quantile docData2 none 1 1 (some "n_counts") true (.names []) none =
      .error (.nameError "name adata is not defined") := by
  decide

/-- C5 counterexample: with `layer_norm='after'` and no caller-supplied
`cell_sum_after`, the primary-derived target is 3 (median of the qualifying
primary sums [1,3,11]), but the layer whose rows each sum to 10 is left with
row sums 10: its rows are not scaled to the primary-derived target, refuting
the claim for the caller-supplied-none case. -/
theorem C5_counterexample :
    normalize_quantile layerData10 none 1 1 none true (.names ["L"]) (some "after") =
      .ok (⟨⟨false, [[3, 0], [3, 0], [15/11, 18/11]]⟩,
        [("L", ⟨false, [[10, 0], [10, 0], [10, 0]]⟩)], []⟩, none) ∧
    median (maskSelect (cell_subsetV (counts_per_cell layerData10.X.rows 1) 1)
      (counts_per_cell layerData10.X.rows 1)) = 3 ∧
    [(10:ℚ), 0].sum ≠ 3 := by
  refine ⟨by decide, by decide, by norm_num⟩

/-- C5 (amended): with `layer_norm='after'`, each selected layer's target total
is `cell_sum_after` exactly as supplied: when the caller supplies a nonzero
value `t`, every layer row with nonzero sum is scaled to total `t`; when
`cell_sum_after` is `None`, the layer is instead normalized to the median of
its own row sums over all rows (not to a primary-derived target). -/
theorem C5_layer_after_target (data : AnnData) (q minc t : ℚ) (n : String) (L : NMat)
    (hq0 : 0 ≤ q) (hq1 : q ≤ 1) (hL : List.lookup n data.layers = some L)
    (hsp : L.sparse = false) (ht : t ≠ 0) :
    (∃ xr M,
      normalize_quantile data (some t) q minc none false (.names [n]) (some "after") =
        .ok (data, some [("X", xr), (n, some M)]) ∧
      ∀ i, i < L.rows.length → (L.rows.getD i []).sum ≠ 0 →
        (M.rows.getD i []).sum = t) ∧
    (∃ xr2 M2,
      normalize_quantile data none q minc none false (.names [n]) (some "after") =
        .ok (data, some [("X", xr2), (n, some M2)]) ∧
      (median (L.rows.map List.sum) ≠ 0 →
        ∀ i, i < L.rows.length → (L.rows.getD i []).sum ≠ 0 →
          (M2.rows.getD i []).sum = median (L.rows.map List.sum))) := by
  constructor
  · refine ⟨(_normalize_data data.X (counts_per_cell data.X.rows q) (some t)
        (some (cell_subsetV (counts_per_cell data.X.rows q) minc)) true).2,
      ⟨false, scaleRows (divisors (L.rows.map List.sum) (some t) none) L.rows⟩,
      ?_, ?_⟩
    · rw [nq_copy_single data (some t) q minc hq0 hq1 n L hL (some "after") (some t)
        (Or.inl ⟨rfl, rfl⟩)]
      simp [_normalize_data, hsp]
    · intro i hi hs
      have hafter : resolveAfter (L.rows.map List.sum) (some t) none = t := rfl
      simpa [hafter] using
        scaled_layer_sum L.rows (some t) i hi hs (by rw [hafter]; exact ht)
  · refine ⟨(_normalize_data data.X (counts_per_cell data.X.rows q) none
        (some (cell_subsetV (counts_per_cell data.X.rows q) minc)) true).2,
      ⟨false, scaleRows (divisors (L.rows.map List.sum) none none) L.rows⟩,
      ?_, ?_⟩
    · rw [nq_copy_single data none q minc hq0 hq1 n L hL (some "after") none
        (Or.inl ⟨rfl, rfl⟩)]
      simp [_normalize_data, hsp]
    · intro hmed i hi hs
      have hafter : resolveAfter (L.rows.map List.sum) none none =
          median (L.rows.map List.sum) := rfl
      simpa [hafter] using
        scaled_layer_sum L.rows none i hi hs (by rw [hafter]; exact hmed)

/-- C5 witness: a dense layer with row sums 2 and 4 and supplied target 10
satisfies the hypotheses of `C5_layer_after_target`. -/
theorem C5_witness :
    (0:ℚ) ≤ 1 ∧ (1:ℚ) ≤ 1 ∧
    List.lookup "L" layerDataW.layers = some ⟨false, [[2], [4]]⟩ ∧
    (⟨false, [[2], [4]]⟩ : NMat).sparse = false ∧ (10:ℚ) ≠ 0 ∧
    ((∃ xr M,
      normalize_quantile layerDataW (some 10) 1 1 none false (.names ["L"])
          (some "after") =
        .ok (layerDataW, some [("X", xr), ("L", some M)]) ∧
      ∀ i, i < (⟨false, [[2], [4]]⟩ : NMat).rows.length →
        ((⟨false, [[2], [4]]⟩ : NMat).rows.getD i []).sum ≠ 0 →
        (M.rows.getD i []).sum = 10) ∧
    (∃ xr2 M2,
      normalize_quantile layerDataW none 1 1 none false (.names ["L"])
          (some "after") =
        .ok (layerDataW, some [("X", xr2), ("L", some M2)]) ∧
      (median ((⟨false, [[2], [4]]⟩ : NMat).rows.map List.sum) ≠ 0 →
        ∀ i, i < (⟨false, [[2], [4]]⟩ : NMat).rows.length →
          ((⟨false, [[2], [4]]⟩ : NMat).rows.getD i []).sum ≠ 0 →
          (M2.rows.getD i []).sum =
            median ((⟨false, [[2], [4]]⟩ : NMat).rows.map List.sum)))) :=
  ⟨by norm_num, by norm_num, by decide, rfl, by norm_num,
    C5_layer_after_target layerDataW 1 1 10 "L" ⟨false, [[2], [4]]⟩ (by norm_num)
      (by norm_num) (by decide) rfl (by norm_num)⟩

/-- C6 counterexample: with `min_counts = 5` the layer row `[1]` (row sum 1,
below the threshold) is scaled to `[5]`: layers are not protected by a
qualifying mask computed from their own row sums, refuting the claim's layer
part. -/
theorem C6_counterexample :
    normalize_quantile layerDataLow none 1 5 none true (.names ["L"]) none =
      .ok (⟨⟨false, [[7], [7]]⟩, [("L", ⟨false, [[5], [5]]⟩)], []⟩, none) ∧
    [(1:ℚ)].sum < 5 ∧ [(5:ℚ)] ≠ [(1:ℚ)] := by
  refine ⟨by decide, by norm_num, by norm_num⟩

/-- C6 (amended): every primary-matrix row whose pre-normalization (filtered)
row sum is strictly below `min_counts` is left numerically identical (its
divisor is forced to 1); selected layers, however, are normalized with no
qualifying mask at all (`cell_subset=None` is passed), so the minimum-count
protection does not apply to them. -/
theorem C6_low_count_rows_untouched (data : AnnData) (csa : Option ℚ) (q minc : ℚ)
    (hq0 : 0 ≤ q) (hq1 : q ≤ 1) :
    (∃ d1, normalize_quantile data csa q minc none true (.names []) none =
      .ok (d1, none) ∧
      ∀ i, i < data.X.rows.length →
        (counts_per_cell data.X.rows q).getD i 0 < minc →
        d1.X.rows.getD i [] = data.X.rows.getD i []) ∧
    (∀ n L, List.lookup n data.layers = some L →
      normalize_quantile data csa q minc none false (.names [n]) none =
        .ok (data, some
          [("X", (_normalize_data data.X (counts_per_cell data.X.rows q) csa
              (some (cell_subsetV (counts_per_cell data.X.rows q) minc)) true).2),
           (n, (_normalize_data L (L.rows.map List.sum) none none true).2)])) := by
  constructor
  · refine ⟨_, nq_inplace_empty data csa q minc hq0 hq1, ?_⟩
    dsimp only
    intro i hi hlt
    have hcl := length_counts_per_cell data.X.rows q
    have hml := length_cell_subsetV (counts_per_cell data.X.rows q) minc
    have hdl : (divisors (counts_per_cell data.X.rows q) csa
        (some (cell_subsetV (counts_per_cell data.X.rows q) minc))).length =
        data.X.rows.length := by
      rw [length_divisors_some _ _ _ hml, hcl]
    rw [scaleRows_getD _ _ i (by rw [hdl]; exact hi) hi]
    rw [primary_divisor_getD data.X.rows q minc csa i hi, if_neg (not_le.mpr hlt)]
    have h1 : guardZero 1 = 1 := by norm_num [guardZero]
    rw [h1]
    exact map_fix_of_fixed _ fun x _ => div_one x
  · intro n L hL
    exact nq_copy_single data csa q minc hq0 hq1 n L hL none none (Or.inr ⟨rfl, rfl⟩)

/-- C6 witness: the container `layerDataLow` with quantile 1 satisfies the
hypotheses of `C6_low_count_rows_untouched`. -/
theorem C6_witness :
    (0:ℚ) ≤ 1 ∧ (1:ℚ) ≤ 1 ∧
    ((∃ d1, normalize_quantile layerDataLow none 1 5 none true (.names []) none =
      .ok (d1, none) ∧
      ∀ i, i < layerDataLow.X.rows.length →
        (counts_per_cell layerDataLow.X.rows 1).getD i 0 < 5 →
        d1.X.rows.getD i [] = layerDataLow.X.rows.getD i []) ∧
    (∀ n L, List.lookup n layerDataLow.layers = some L →
      normalize_quantile layerDataLow none 1 5 none false (.names [n]) none =
        .ok (layerDataLow, some
          [("X", (_normalize_data layerDataLow.X
              (counts_per_cell layerDataLow.X.rows 1) none
              (some (cell_subsetV (counts_per_cell layerDataLow.X.rows 1) 5)) true).2),
           (n, (_normalize_data L (L.rows.map List.sum) none none true).2)]))) :=
  ⟨by norm_num, by norm_num,
    C6_low_count_rows_untouched layerDataLow none 1 5 (by norm_num) (by norm_num)⟩

/-- C7: in the row-scaling primitive every divisor equal to exactly zero is
replaced by 1 before division, so every entry of the divisor vector is
nonzero and the division step never divides by zero; and a row whose values
are all zero is left unchanged by scaling, hence remains all zero. -/
theorem C7_zero_divisor_guard :
    (∀ (counts : List ℚ) (a : Option ℚ) (s : Option (List Bool)) (i : ℕ),
      (divisors counts a s).getD i 1 ≠ 0) ∧
    (∀ (X : NMat) (counts : List ℚ) (a : Option ℚ) (s : Option (List Bool)) (i : ℕ),
      (divisors counts a s).length = X.rows.length → i < X.rows.length →
      (∀ x ∈ X.rows.getD i [], x = 0) →
      ((_normalize_data X counts a s false).1).rows.getD i [] = X.rows.getD i [] ∧
      ∀ x ∈ ((_normalize_data X counts a s false).1).rows.getD i [], x = 0) := by
  have hmem : ∀ (counts : List ℚ) (a : Option ℚ) (s : Option (List Bool)),
      ∀ x ∈ divisors counts a s, x ≠ 0 := by
    intro counts a s x hx
    rcases List.mem_map.mp hx with ⟨c, _, hc⟩
    rw [← hc]
    by_cases hc0 : c = 0
    · simp [guardZero, hc0]
    · simp only [guardZero, if_neg hc0]
      exact hc0
  constructor
  · intro counts a s i
    rcases lt_or_ge i (divisors counts a s).length with h | h
    · rw [List.getD_eq_getElem _ _ h]
      exact hmem counts a s _ (List.getElem_mem h)
    · rw [List.getD_eq_default _ _ h]
      norm_num
  · intro X counts a s i hdl hi hz
    have hrow : ((_normalize_data X counts a s false).1).rows.getD i [] =
        (X.rows.getD i []).map
          (fun x => x / (divisors counts a s).getD i 1) := by
      show (scaleRows (divisors counts a s) X.rows).getD i [] = _
      exact scaleRows_getD _ _ i (by rw [hdl]; exact hi) hi
    have heq : (X.rows.getD i []).map
        (fun x => x / (divisors counts a s).getD i 1) = X.rows.getD i [] := by
      refine map_fix_of_fixed _ fun x hx => ?_
      rw [hz x hx]
      simp
    rw [hrow, heq]
    exact ⟨rfl, hz⟩

/-- C7 witness: the zero-divisor guard and the zero-row preservation of
`C7_zero_divisor_guard` instantiated on a concrete empty row. -/
theorem C7_witness :
    ((divisors [0, 3] none none).length = (⟨false, [[0, 0], [1, 2]]⟩ : NMat).rows.length ∧
      0 < (⟨false, [[0, 0], [1, 2]]⟩ : NMat).rows.length ∧
      (∀ x ∈ (⟨false, [[0, 0], [1, 2]]⟩ : NMat).rows.getD 0 [], x = (0:ℚ))) ∧
    (divisors [0, 3] none none).getD 0 1 ≠ 0 ∧
    (((_normalize_data ⟨false, [[0, 0], [1, 2]]⟩ [0, 3] none none false).1).rows.getD 0 [] =
        (⟨false, [[0, 0], [1, 2]]⟩ : NMat).rows.getD 0 [] ∧
      ∀ x ∈ ((_normalize_data ⟨false, [[0, 0], [1, 2]]⟩ [0, 3] none none false).1).rows.getD 0 [],
        x = 0) :=
  ⟨⟨by decide, by decide, by decide⟩,
    C7_zero_divisor_guard.1 [0, 3] none none 0,
    C7_zero_divisor_guard.2 ⟨false, [[0, 0], [1, 2]]⟩ [0, 3] none none 0
      (by decide) (by decide) (by decide)⟩

/-- C8: the quantile range is validated first and an out-of-range quantile
raises `ValueError` before anything else; an invalid `layer_norm` raises the
`ValueError` only when `key_n_counts` is absent — when `key_n_counts` is
provided, the `NameError` from the undefined name `adata` preempts the
`layer_norm` validation; in all three cases the error is returned with no
matrix or metadata mutation. -/
theorem C8_validation_errors :
    normalize_quantile layerData10 none 2 1 (some "k") true (.names []) (some "bogus") =
      .error (.valueError "Choose quantile between 0 and 1.") ∧
    normalize_quantile layerData10 none 1 1 none true (.names []) (some "bogus") =
      .error (.valueError "layer_norm should be \"after\", \"X\" or None") ∧
    normalize_quantile layerData10 none 1 1 (some "k") true (.names []) (some "bogus") =
      .error (.nameError "name adata is not defined") := by
  refine ⟨by decide, by decide, by decide⟩

/-- C9: `normalize_total` delegates to `normalize_quantile` with `quantile=1`
and the shared arguments forwarded unchanged, and its result is independent of
the `counts_per_cell` argument. -/
theorem C9_normalize_total_equiv (data : AnnData) (csa : Option ℚ)
    (cpc cpc2 : Option (List ℚ)) (key : Option String) (inpl : Bool)
    (lys : LayerSel) (lnorm : Option String) (minc : ℚ) :
    normalize_total data csa cpc key inpl lys lnorm minc =
      normalize_quantile data csa 1 minc key inpl lys lnorm ∧
    normalize_total data csa cpc key inpl lys lnorm minc =
      normalize_total data csa cpc2 key inpl lys lnorm minc :=
  ⟨rfl, rfl⟩

/-- C10 counterexample: on the matrix `[[-1,-1]]` (negative row total), column
0 is included in the row-sum computation at quantile 1/2 but excluded at
quantile 4/5, although `1/2 ≤ 4/5` and both lie in `[0,1]`: the included
column set is not monotone in the quantile for arbitrary matrices. -/
theorem C10_counterexample :
    (0:ℚ) ≤ 1/2 ∧ (1/2:ℚ) ≤ 4/5 ∧ (4/5:ℚ) ≤ 1 ∧
    usedColB [[-1, -1]] (1/2) 0 = true ∧ usedColB [[-1, -1]] (4/5) 0 = false := by
  refine ⟨by norm_num, by norm_num, by norm_num, by decide, by decide⟩

/-- C10 (amended): for a matrix with nonnegative entries, lowering the
quantile never adds a column: if `q1 ≤ q2` with both in `[0,1]`, every column
used in the row-sum computation at `q1` is also used at `q2`. -/
theorem C10_included_monotone (rows : Mat) (q1 q2 : ℚ) (j : ℕ)
    (hnn : ∀ r ∈ rows, ∀ x ∈ r, (0:ℚ) ≤ x)
    (h0 : 0 ≤ q1) (h12 : q1 ≤ q2) (h21 : q2 ≤ 1) (hj : j < ncols rows)
    (h1 : usedColB rows q1 j = true) : usedColB rows q2 j = true := by
  have eq1 : ∀ q : ℚ, q < 1 → usedColB rows q j = includedColB rows q j := by
    intro q hq
    rw [← geneMask_getD rows q j hj]
    unfold usedColB gene_subset
    rw [if_pos hq]
  by_cases hq2 : q2 < 1
  · have hq1 : q1 < 1 := lt_of_le_of_lt h12 hq2
    rw [eq1 q1 hq1] at h1
    rw [eq1 q2 hq2]
    rw [includedColB, List.all_eq_true] at h1 ⊢
    intro r hr
    have hle : r.getD j 0 ≤ r.sum * q1 := by simpa using h1 r hr
    have hs : 0 ≤ r.sum := List.sum_nonneg (hnn r hr)
    have hmul : r.sum * q1 ≤ r.sum * q2 := mul_le_mul_of_nonneg_left h12 hs
    simpa using le_trans hle hmul
  · unfold usedColB gene_subset
    rw [if_neg hq2]

/-- C10 witness: the nonnegative matrix `[[1,3]]` with quantiles 1/4 and 1/2
satisfies the hypotheses of `C10_included_monotone` at column 0. -/
theorem C10_witness :
    ((∀ r ∈ [[(1:ℚ), 3]], ∀ x ∈ r, (0:ℚ) ≤ x) ∧ (0:ℚ) ≤ 1/4 ∧ (1/4:ℚ) ≤ 1/2 ∧
      (1/2:ℚ) ≤ 1 ∧ 0 < ncols [[(1:ℚ), 3]] ∧
      usedColB [[(1:ℚ), 3]] (1/4) 0 = true) ∧
    usedColB [[(1:ℚ), 3]] (1/2) 0 = true :=
  ⟨⟨by decide, by norm_num, by norm_num, by norm_num, by decide, by decide⟩,
    C10_included_monotone [[(1:ℚ), 3]] (1/4) (1/2) 0 (by decide) (by norm_num)
      (by norm_num) (by norm_num) (by decide) (by decide)⟩

end Scanpy
